import Mathlib

/-!
Shallow embedding of the EPSolar Tracer register codec
(`src/collectors/machinon/epsolar_tracer/registers.py`) and the client
dispatch (`src/collectors/machinon/epsolar_tracer/client.py`).

Conventions of the embedding:
* Python arbitrary-precision integers are `Int` (registers' word values,
  which are natural numbers on the wire, are `Nat`).
* Python floats produced by `float(raw) / multiplier` are modelled as
  exact rationals `ℚ`; `int(x)` is truncation toward zero (`pyTrunc`).
* Python `x >> k` on an `int` is floor division, `Int.fdiv x (2 ^ k)`;
  Python `x & 0xFFFF` on an `int` (also a negative one) is `x % 65536`
  with the always-nonnegative `Int.emod`.
* A pymodbus response object is `Option (List Nat)` (`none` when the
  object has no `registers` attribute, i.e. the transport returned an
  error object) or `Option (List Bool)` for coil `bits`.
* Python exceptions raised inside decode (`IndexError` from
  `registers[-1]` on an empty list, `ValueError` from a
  `datetime.datetime` constructor with out-of-range fields) are the
  `Except` error branch.
-/

namespace EpsolarTracer

deriving instance DecidableEq for Except

/-- `RegisterType` enumeration from `registers.py`. -/
inductive RegisterType where
  | coil
  | discrete
  | input
  | holding
  | unknown
deriving DecidableEq

/-- Address classification performed in `Register.__init__`:
`0x0 <= a < 0x1000` coil, `0x1000 <= a < 0x3000` discrete,
`0x3000 <= a < 0x9000` input, `0x9000 <= a < 0x10000` holding,
otherwise unknown.  Addresses are natural numbers, so the lower bound
`0x0 <=` of the first branch is automatic. -/
def registerTypeOf (address : Nat) : RegisterType :=
  if address < 0x1000 then .coil
  else if address < 0x3000 then .discrete
  else if address < 0x9000 then .input
  else if address < 0x10000 then .holding
  else .unknown

/-- A `Register` as constructed in `registers.py`: `address`, `size`
(word count, default 1) and `multiplier` (default 1).  The `description`
and `unit` fields carry no codec semantics and are omitted. -/
structure Register where
  address : Nat
  size : Nat := 1
  multiplier : Int := 1
deriving DecidableEq

/-- `self.type`, derived solely from the address (see `registerTypeOf`). -/
def Register.type (r : Register) : RegisterType :=
  registerTypeOf r.address

/-- Python `int(q)` for a real number: truncation toward zero. -/
def pyTrunc (q : ℚ) : ℤ :=
  if 0 ≤ q then ⌊q⌋ else ⌈q⌉

/-- The word list built by `Register.encode` from the already scaled and
truncated integer `raw`: `values.append((raw_value >> (i * 16)) & 0xFFFF)`
for `i in range(size)`.  `>>` on a Python int is floor division and
`& 0xFFFF` is the nonnegative remainder mod 65536. -/
def encodeWords (raw : ℤ) (size : Nat) : List Nat :=
  (List.range size).map fun i => ((Int.fdiv raw (2 ^ (i * 16))) % 65536).toNat

/-- `Register.encode`: `raw_value = int(value * self.multiplier)`, then
split `raw_value` into `size` words, least significant word first. -/
def Register.encode (r : Register) (value : ℚ) : List Nat :=
  encodeWords (pyTrunc (value * (r.multiplier : ℚ))) r.size

/-- A `RegisterValue`: the raw integer (or `none` when the device
returned no data) and the derived value. -/
structure RegisterValue where
  raw_value : Option ℤ
  value : Option ℚ
deriving DecidableEq

/-- `RegisterValue.__init__`: the derived value is
`float(raw_value) / multiplier` when `multiplier != 1` and the raw value
is present, otherwise the raw value itself. -/
def RegisterValue.make (r : Register) (raw : Option ℤ) : RegisterValue :=
  { raw_value := raw
    value :=
      match raw with
      | none => none
      | some v => if r.multiplier ≠ 1 then some ((v : ℚ) / (r.multiplier : ℚ)) else some (v : ℚ) }

/-- A rational is exactly representable as an IEEE-754 binary64 value:
it is `n * 2 ^ e` with a significand of at most 53 bits.  (The binary64
exponent range is not modelled; no value in this development comes near
its limits.) -/
def Representable (x : ℚ) : Prop :=
  ∃ (n : ℤ) (e : ℤ), |n| < 2 ^ 53 ∧ x = (n : ℚ) * (2 : ℚ) ^ e

/-- Round a rational to the nearest integer, ties to even — the
rounding of IEEE-754 round-to-nearest arithmetic (also correct for
negative values, via the floor and fractional part). -/
def rndNE (s : ℚ) : ℤ :=
  if s - ⌊s⌋ < 1 / 2 then ⌊s⌋
  else if 1 / 2 < s - ⌊s⌋ then ⌊s⌋ + 1
  else if 2 ∣ ⌊s⌋ then ⌊s⌋ else ⌊s⌋ + 1

/-- Round a rational to the IEEE-754 binary64 grid (round to nearest,
ties to even).  A nonzero `x` in the binade `2 ^ E ≤ |x| < 2 ^ (E + 1)`
(with `E = Int.log 2 |x|`) is scaled so that its significand occupies
bits 0–52, rounded to an integer, and scaled back. -/
def roundDouble (x : ℚ) : ℚ :=
  if x = 0 then 0
  else (rndNE (x * (2 : ℚ) ^ ((52 : ℤ) - Int.log 2 |x|)) : ℚ)
    * (2 : ℚ) ^ (Int.log 2 |x| - 52)

/-- The derived value computed by `RegisterValue.__init__` under real
IEEE-754 binary64 semantics: `float(raw_value) / self.multiplier`
rounds `raw_value` to a double, converts the multiplier to a double,
and rounds the quotient of the two doubles to a double.
(`RegisterValue.make` above is the exact-rational idealisation of the
same expression; this refinement keeps the double rounding that the
idealisation erases.) -/
def floatValue (r : Register) (raw : ℤ) : ℚ :=
  if r.multiplier ≠ 1 then
    roundDouble (roundDouble ((raw : ℚ)) / roundDouble ((r.multiplier : ℚ)))
  else ((raw : ℚ))

/-- `Register.encode` applied to a Python float under real IEEE-754
binary64 semantics: `int(value * self.multiplier)` converts the
multiplier to a double, rounds the product of doubles to a double, and
truncates.  (`Register.encode` above is the exact-rational idealisation
of the same expression, exact on integer-valued inputs.) -/
def Register.floatEncode (r : Register) (value : ℚ) : List Nat :=
  encodeWords (pyTrunc (roundDouble (value * roundDouble ((r.multiplier : ℚ))))) r.size

/-- Python exceptions that can escape the decode paths. -/
inductive DecodeError where
  | indexError
  | valueError
deriving DecidableEq

/-- The accumulation loop of `Register.decode`:
`for i in range(len(registers)): raw_value |= registers[i] << (i * 16)`. -/
def composeWords (regs : List Nat) : Nat :=
  (List.range regs.length).foldl (fun acc i => acc ||| ((regs.getD i 0) <<< (i * 16))) 0

/-- `Register.decode`.  A response without a `registers` attribute is
`none` and yields an absent value.  Otherwise the words are OR-composed
and sign-extended: if the most significant returned word has bit 15 set,
`1 << (len(registers) * 16)` is subtracted.  `registers[-1]` raises
`IndexError` when the register list is present but empty. -/
def Register.decode (r : Register) (response : Option (List Nat)) :
    Except DecodeError RegisterValue :=
  match response with
  | none => .ok (RegisterValue.make r none)
  | some regs =>
    match regs.getLast? with
    | none => .error .indexError
    | some last =>
      .ok (RegisterValue.make r (some
        (if last &&& 0x8000 = 0x8000 then
          (composeWords regs : ℤ) - 2 ^ (regs.length * 16)
        else
          (composeWords regs : ℤ))))

/-- A Python `datetime.datetime` value (date and time fields only; the
code never sets microseconds or a timezone). -/
structure PyDatetime where
  year : Nat
  month : Nat
  day : Nat
  hour : Nat
  minute : Nat
  second : Nat
deriving DecidableEq

/-- Gregorian leap-year rule used by `datetime`. -/
def isLeapYear (y : Nat) : Bool :=
  y % 4 == 0 && (y % 100 != 0 || y % 400 == 0)

/-- Days in a month, as validated by `datetime`. -/
def daysInMonth (y m : Nat) : Nat :=
  if m = 2 then (if isLeapYear y then 29 else 28)
  else if m = 4 ∨ m = 6 ∨ m = 9 ∨ m = 11 then 30
  else 31

/-- Modelled from the spec: the `datetime.datetime(year, month, day,
hour, minute, second)` constructor of the Python standard library (not
part of this repository's sources).  It validates its fields and raises
`ValueError` when one is out of range. -/
def datetimeMk (y mo d h mi s : Nat) : Except DecodeError PyDatetime :=
  if 1 ≤ y ∧ y ≤ 9999 ∧ 1 ≤ mo ∧ mo ≤ 12 ∧ 1 ≤ d ∧ d ≤ daysInMonth y mo
      ∧ h ≤ 23 ∧ mi ≤ 59 ∧ s ≤ 59 then
    .ok { year := y, month := mo, day := d, hour := h, minute := mi, second := s }
  else
    .error .valueError

/-- Decode result of the RTC register: raw integer and structured
timestamp. -/
structure RTCValue where
  raw_value : Option ℤ
  value : Option PyDatetime
deriving DecidableEq

/-- `SettingParameter.Clock = RTC(0x9013)`: the real-time clock register,
`size=3`, default multiplier 1. -/
def rtcRegister : Register :=
  { address := 0x9013, size := 3, multiplier := 1 }

/-- `RTC.decode`: run `Register.decode`, then, when a value is present,
take `value = int(register_value.value)` and extract the six byte-wide
fields with masks and shifts.  Python's `value & mask` for a mask lying
below bit 48 depends only on `value` modulo `2 ^ 48` (also for negative
`value`, whose two's-complement low bits are those of `value % 2 ^ 48`),
so the embedding applies the masks to `(value % 2 ^ 48).toNat`. -/
def RTC.decode (response : Option (List Nat)) : Except DecodeError RTCValue :=
  match rtcRegister.decode response with
  | .error e => .error e
  | .ok rv =>
    match rv.value with
    | none => .ok { raw_value := rv.raw_value, value := none }
    | some q =>
      let value : Nat := ((pyTrunc q) % 2 ^ 48).toNat
      let year := ((value &&& 0xFF0000000000) >>> 40) + 2000
      let month := (value &&& 0x00FF00000000) >>> 32
      let day := (value &&& 0x0000FF000000) >>> 24
      let hour := (value &&& 0x000000FF0000) >>> 16
      let minute := (value &&& 0x00000000FF00) >>> 8
      let second := value &&& 0x0000000000FF
      match datetimeMk year month day hour minute second with
      | .error e => .error e
      | .ok dt => .ok { raw_value := rv.raw_value, value := some dt }

/-- The argument of `RTC.encode`: Python duck-types on
`hasattr(value, "year")`, so the input is either a datetime-like value
or any other (numeric) value, used as the packed integer directly. -/
inductive RTCInput where
  | timestamp (dt : PyDatetime)
  | plain (v : ℤ)

/-- The 48-bit packed timestamp built by `RTC.encode`:
`(year - 2000) << 40 | month << 32 | day << 24 | hour << 16 |
minute << 8 | second`.  Every field below bit 40 is a `datetime` field
smaller than `2 ^ 8`, so the ORs combine disjoint bit ranges and equal
this sum (also when `year < 2000` makes the top term negative, since the
low 40 bits of that term's two's complement are zero). -/
def rtcPack (dt : PyDatetime) : ℤ :=
  ((dt.year : ℤ) - 2000) * 2 ^ 40 + (dt.month : ℤ) * 2 ^ 32 + (dt.day : ℤ) * 2 ^ 24
    + (dt.hour : ℤ) * 2 ^ 16 + (dt.minute : ℤ) * 2 ^ 8 + (dt.second : ℤ)

/-- `RTC.encode`: pack a datetime-like value, or pass any other value
through unchanged, then run the plain `Register.encode` (multiplier 1,
size 3). -/
def RTC.encode (input : RTCInput) : List Nat :=
  Register.encode rtcRegister
    ((match input with
      | .timestamp dt => rtcPack dt
      | .plain v => v : ℤ) : ℚ)

/-- Decode result of a coil: `RegisterValue(self, response.bits[0])`.
All `Coil` instances in the catalog use the default multiplier 1, so the
derived value is the raw boolean itself. -/
structure CoilValue where
  raw_value : Option Bool
  value : Option Bool
deriving DecidableEq

/-- `Coil.decode`: a response without a `bits` attribute yields an absent
value; otherwise `response.bits[0]` is taken (`IndexError` when the bit
list is present but empty). -/
def Coil.decode (_r : Register) (response : Option (List Bool)) :
    Except DecodeError CoilValue :=
  match response with
  | none => .ok { raw_value := none, value := none }
  | some bits =>
    match bits with
    | [] => .error .indexError
    | b :: _ => .ok { raw_value := some b, value := some b }

/-- `RealtimeStatus.describe_battery_status` from `registers.py`,
with the appends to the `status` and `faults` lists in source order. -/
def describe_battery_status (val : Nat) : List String × List String :=
  let status : List String :=
    if val &&& (1 <<< 8) ≠ 0 then [] else ["Battery internal resistance normal"]
  let faults : List String :=
    (if val &&& (1 <<< 15) ≠ 0 then ["Wrong identification for rated voltage"] else [])
    ++ (if val &&& (1 <<< 8) ≠ 0 then ["Battery internal resistance abnormal"] else [])
    ++ (if (val &&& 0x00F0) >>> 4 = 2 then ["Battery temperature too low"] else [])
    ++ (if (val &&& 0x00F0) >>> 4 = 1 then ["Battery temperature too high"] else [])
    ++ (if (val &&& 0x00F0) >>> 4 = 0 then ["Battery temperature normal"] else [])
    ++ (if val &&& 0x000F = 4 then ["Voltage fault"] else [])
    ++ (if val &&& 0x000F = 3 then ["Low voltage disconnect"] else [])
    ++ (if val &&& 0x000F = 2 then ["Voltage too low"] else [])
    ++ (if val &&& 0x000F = 1 then ["Voltage too high"] else [])
    ++ (if val &&& 0x000F = 0 then ["Voltage normal"] else [])
  (status, faults)

/-- A call issued to a transport write primitive by the client. -/
inductive TransportCall where
  | writeCoils (address : Nat) (values : List Nat)
  | writeRegisters (address : Nat) (values : List Nat)
deriving DecidableEq

/-- The exception raised by `unsupported_register_type` in `client.py`
when a register classification has no transport primitive. -/
inductive ClientError where
  | unsupportedRegisterType
deriving DecidableEq

/-- `EpsolarTracerClient.write_register`: encode the value, then look up
the write helper keyed by the register classification.  The helper table
holds `write_coils` for `COIL` and `write_registers` for `HOLDING`; any
other classification hits the `defaultdict` factory
`unsupported_register_type`, which raises before any transport call.
The result is the list of transport calls issued paired with the raised
error, if any. -/
def write_register (r : Register) (value : ℚ) :
    List TransportCall × Option ClientError :=
  let values := r.encode value
  match r.type with
  | .coil => ([.writeCoils r.address values], none)
  | .holding => ([.writeRegisters r.address values], none)
  | _ => ([], some .unsupportedRegisterType)

/-- Specification-side reformulation of the word composition: the words
interpreted as base-`2 ^ 16` digits, least significant first.  Used to
relate `composeWords` (bitwise or of shifted words, as in the source) to
positional arithmetic. -/
def sumWords : List Nat → Nat
  | [] => 0
  | w :: ws => w + 2 ^ 16 * sumWords ws

/-- `RealtimeData.PvArrayInputVoltage = Register(0x3100, multiplier=100)`. -/
def PvArrayInputVoltage : Register :=
  { address := 0x3100, size := 1, multiplier := 100 }

/-- `RealtimeData.BatterySOC = Register(0x311A)` (defaults: size 1,
multiplier 1). -/
def BatterySOC : Register :=
  { address := 0x311A, size := 1, multiplier := 1 }

/-- `RealtimeData.PvArrayInputPower = Register(0x3102, multiplier=100, size=2)`. -/
def PvArrayInputPower : Register :=
  { address := 0x3102, size := 2, multiplier := 100 }

/-- `ControlCoil.LoadControl = Coil(0x2)`. -/
def LoadControl : Register :=
  { address := 0x2, size := 1, multiplier := 1 }

/-! ### Helper lemmas -/

/-- Shifting left distributes over bitwise or. -/
theorem shiftLeft_or_distrib (a b k : Nat) :
    (a ||| b) <<< k = (a <<< k) ||| (b <<< k) := by
  apply Nat.eq_of_testBit_eq
  intro j
  simp [Nat.testBit_shiftLeft, Nat.testBit_or, Bool.and_or_distrib_left]

/-- The accumulator of a fold of bitwise ors factors out. -/
theorem foldl_or_acc (g : Nat → Nat) (l : List Nat) (acc : Nat) :
    l.foldl (fun a i => a ||| g i) acc = acc ||| l.foldl (fun a i => a ||| g i) 0 := by
  induction l generalizing acc with
  | nil => simp
  | cons x xs ih =>
    simp only [List.foldl_cons]
    rw [ih (acc ||| g x), ih (0 ||| g x)]
    simp [Nat.or_assoc]

/-- A fold of bitwise ors of uniformly shifted terms is the shifted fold. -/
theorem foldl_or_shift (g : Nat → Nat) (l : List Nat) (acc : Nat) :
    l.foldl (fun a i => a ||| (g i <<< 16)) acc
      = acc ||| (l.foldl (fun a i => a ||| g i) 0) <<< 16 := by
  induction l generalizing acc with
  | nil => simp
  | cons x xs ih =>
    simp only [List.foldl_cons]
    rw [ih (acc ||| g x <<< 16), foldl_or_acc g xs (0 ||| g x)]
    rw [Nat.zero_or, shiftLeft_or_distrib]
    simp [Nat.or_assoc]

theorem composeWords_nil : composeWords [] = 0 := rfl

/-- Structural characterisation of the or-composition loop. -/
theorem composeWords_cons (w : Nat) (ws : List Nat) :
    composeWords (w :: ws) = w ||| (composeWords ws) <<< 16 := by
  unfold composeWords
  rw [List.length_cons, List.range_succ_eq_map, List.foldl_cons, List.foldl_map]
  have hfun : (fun (acc : Nat) (i : Nat) =>
      acc ||| ((w :: ws).getD (Nat.succ i) 0) <<< (Nat.succ i * 16))
      = fun (acc : Nat) (i : Nat) => acc ||| ((ws.getD i 0 <<< (i * 16)) <<< 16) := by
    funext acc i
    rw [List.getD_cons_succ, Nat.succ_mul, Nat.shiftLeft_add]
  rw [hfun, foldl_or_shift (fun i => ws.getD i 0 <<< (i * 16)) (List.range ws.length)]
  rw [List.getD_cons_zero, Nat.zero_mul, Nat.shiftLeft_zero, Nat.zero_or]

/-- With 16-bit words the or-composition is positional base-`2 ^ 16`
arithmetic. -/
theorem composeWords_eq_sum (regs : List Nat) (hw : ∀ w ∈ regs, w < 2 ^ 16) :
    composeWords regs = sumWords regs := by
  induction regs with
  | nil => rfl
  | cons w ws ih =>
    rw [composeWords_cons, ih (fun x hx => hw x (List.mem_cons_of_mem _ hx)),
      Nat.shiftLeft_eq, sumWords]
    have hw0 : w < 2 ^ 16 := hw w (List.mem_cons_self _ _)
    have h := Nat.mul_add_lt_is_or (i := 16) hw0 (sumWords ws)
    rw [Nat.mul_comm (sumWords ws) (2 ^ 16), Nat.or_comm, ← h, Nat.add_comm]

/-- The composed value fits in `16 * word count` bits. -/
theorem sumWords_lt (regs : List Nat) (hw : ∀ w ∈ regs, w < 2 ^ 16) :
    sumWords regs < 2 ^ (regs.length * 16) := by
  induction regs with
  | nil => simp [sumWords]
  | cons w ws ih =>
    have hs := ih (fun x hx => hw x (List.mem_cons_of_mem _ hx))
    have hw0 : w < 2 ^ 16 := hw w (List.mem_cons_self _ _)
    rw [sumWords, List.length_cons, Nat.succ_mul, Nat.add_comm (ws.length * 16) 16,
      pow_add]
    calc w + 2 ^ 16 * sumWords ws < 2 ^ 16 * (sumWords ws + 1) := by omega
      _ ≤ 2 ^ 16 * 2 ^ (ws.length * 16) := Nat.mul_le_mul_left _ (by omega)

/-- `sumWords` written as an indexed sum `∑ word[i] * 2 ^ (16 i)`. -/
theorem sumWords_eq_finsetSum (W : List Nat) :
    sumWords W = ∑ i ∈ Finset.range W.length, W.getD i 0 * 2 ^ (16 * i) := by
  induction W with
  | nil => simp [sumWords]
  | cons w ws ih =>
    rw [sumWords, List.length_cons, Finset.sum_range_succ']
    have h : ∀ i ∈ Finset.range ws.length,
        (w :: ws).getD (i + 1) 0 * 2 ^ (16 * (i + 1))
          = (ws.getD i 0 * 2 ^ (16 * i)) * 2 ^ 16 := by
      intro i _
      rw [List.getD_cons_succ, show 16 * (i + 1) = 16 * i + 16 by ring, pow_add,
        mul_assoc]
    rw [Finset.sum_congr rfl h, ← Finset.sum_mul, ← ih, List.getD_cons_zero]
    ring

/-- Extracting base-`2 ^ 16` digits recovers the word list. -/
theorem natWords_sum (W : List Nat) (hw : ∀ w ∈ W, w < 2 ^ 16) :
    (List.range W.length).map (fun i => sumWords W / 2 ^ (i * 16) % 2 ^ 16) = W := by
  induction W with
  | nil => rfl
  | cons w ws ih =>
    have hw0 : w < 2 ^ 16 := hw w (List.mem_cons_self _ _)
    rw [List.length_cons, List.range_succ_eq_map, List.map_cons, List.map_map]
    have hhead : sumWords (w :: ws) / 2 ^ (0 * 16) % 2 ^ 16 = w := by
      rw [sumWords, Nat.zero_mul, pow_zero, Nat.div_one, Nat.add_mul_mod_self_left,
        Nat.mod_eq_of_lt hw0]
    have htail : ∀ i ∈ List.range ws.length,
        sumWords (w :: ws) / 2 ^ (Nat.succ i * 16) % 2 ^ 16
          = sumWords ws / 2 ^ (i * 16) % 2 ^ 16 := by
      intro i _
      rw [sumWords, Nat.succ_mul, Nat.add_comm (i * 16) 16, pow_add,
        ← Nat.div_div_eq_div_mul, Nat.add_mul_div_left _ _ (by positivity),
        Nat.div_eq_of_lt hw0, Nat.zero_add]
    rw [hhead]
    exact congrArg (w :: ·) ((List.map_congr_left htail).trans
      (ih (fun x hx => hw x (List.mem_cons_of_mem _ hx))))

/-- `encodeWords` on a natural number is plain digit extraction. -/
theorem encodeWords_natCast (c : Nat) (n : Nat) :
    encodeWords (c : ℤ) n = (List.range n).map (fun i => c / 2 ^ (i * 16) % 2 ^ 16) := by
  unfold encodeWords
  apply List.map_congr_left
  intro i _
  rw [Int.fdiv_eq_ediv _ (by positivity)]
  rw [show ((2 : ℤ) ^ (i * 16)) = ((2 ^ (i * 16) : ℕ) : ℤ) by push_cast; rfl,
    ← Int.ofNat_ediv, show (65536 : ℤ) = ((2 ^ 16 : ℕ) : ℤ) by norm_num,
    ← Int.ofNat_emod, Int.toNat_ofNat]

/-- `encodeWords` only depends on the low `16 * size` bits of its input. -/
theorem encodeWords_emod (raw : ℤ) (n : Nat) :
    encodeWords raw n = encodeWords (raw % 2 ^ (n * 16)) n := by
  unfold encodeWords
  apply List.map_congr_left
  intro i hi
  have hi' : i < n := List.mem_range.mp hi
  rw [Int.fdiv_eq_ediv _ (by positivity), Int.fdiv_eq_ediv _ (by positivity)]
  have hd : (0 : ℤ) < 2 ^ (i * 16) := by positivity
  have hsplit : raw = raw % 2 ^ (n * 16)
      + ((raw / 2 ^ (n * 16)) * 2 ^ ((n - i - 1) * 16 + 16)) * 2 ^ (i * 16) := by
    have : (2 : ℤ) ^ (n * 16)
        = 2 ^ ((n - i - 1) * 16 + 16) * 2 ^ (i * 16) := by
      rw [← pow_add]
      congr 1
      omega
    calc raw = raw % 2 ^ (n * 16) + 2 ^ (n * 16) * (raw / 2 ^ (n * 16)) :=
            (Int.emod_add_ediv raw _).symm
      _ = _ := by rw [this]; ring
  conv_lhs => rw [hsplit]
  rw [Int.add_mul_ediv_right _ _ (by positivity)]
  rw [show ((raw / 2 ^ (n * 16)) * 2 ^ ((n - i - 1) * 16 + 16))
      = ((raw / 2 ^ (n * 16)) * 2 ^ ((n - i - 1) * 16)) * 65536 by
    rw [pow_add]; norm_num; ring]
  rw [Int.add_mul_emod_self]

/-- Decoding (with optional sign extension) then re-extracting the words
recovers the original 16-bit word list. -/
theorem encodeWords_sign_roundtrip (W : List Nat) (hw : ∀ w ∈ W, w < 2 ^ 16) (X : ℤ)
    (hX : X = (composeWords W : ℤ) ∨ X = (composeWords W : ℤ) - 2 ^ (W.length * 16)) :
    encodeWords X W.length = W := by
  have hsum := composeWords_eq_sum W hw
  have hlt := sumWords_lt W hw
  rw [encodeWords_emod]
  have hmod : X % 2 ^ (W.length * 16) = ((sumWords W : ℕ) : ℤ) := by
    have hcast : ((sumWords W : ℕ) : ℤ) < 2 ^ (W.length * 16) := by
      calc ((sumWords W : ℕ) : ℤ) < ((2 ^ (W.length * 16) : ℕ) : ℤ) := by
            exact_mod_cast hlt
        _ = 2 ^ (W.length * 16) := by push_cast; rfl
    rcases hX with h | h <;> subst h <;> rw [hsum]
    · exact Int.emod_eq_of_lt (by positivity) hcast
    · rw [show ((sumWords W : ℕ) : ℤ) - 2 ^ (W.length * 16)
          = ((sumWords W : ℕ) : ℤ) + (-1) * 2 ^ (W.length * 16) by ring,
        Int.add_mul_emod_self]
      exact Int.emod_eq_of_lt (by positivity) hcast
  rw [hmod, encodeWords_natCast, natWords_sum W hw]

/-- Unfolding `Register.decode` on a present, nonempty register list. -/
theorem decode_some (r : Register) (W : List Nat) (hne : W ≠ []) :
    r.decode (some W) = .ok (RegisterValue.make r (some
      (if W.getLast hne &&& 0x8000 = 0x8000 then
        (composeWords W : ℤ) - 2 ^ (W.length * 16)
      else
        (composeWords W : ℤ)))) := by
  simp only [Register.decode, List.getLast?_eq_getLast W hne]

theorem make_raw_value (r : Register) (v : Option ℤ) :
    (RegisterValue.make r v).raw_value = v := rfl

/-- Python `int()` of an integer-valued rational is the integer itself. -/
theorem pyTrunc_intCast (n : ℤ) : pyTrunc ((n : ℚ)) = n := by
  unfold pyTrunc
  split_ifs with h
  · exact_mod_cast Int.floor_intCast (α := ℚ) n
  · exact_mod_cast Int.ceil_intCast (α := ℚ) n

/-- `Register.encode` on an integer-valued input. -/
theorem encode_intCast (r : Register) (v : ℤ) :
    r.encode ((v : ℚ)) = encodeWords (v * r.multiplier) r.size := by
  unfold Register.encode
  rw [show ((v : ℚ) * (r.multiplier : ℚ)) = ((v * r.multiplier : ℤ) : ℚ) by
    push_cast; ring]
  rw [pyTrunc_intCast]

/-- `rndNE` at a value within `[n, n + 1/2)` rounds down to `n` (this
covers every rounding performed in this development, including exact
integers). -/
theorem rndNE_eq_of_lt_half (s : ℚ) (n : ℤ) (h1 : (n : ℚ) ≤ s)
    (h2 : s < (n : ℚ) + 1 / 2) : rndNE s = n := by
  have hf : ⌊s⌋ = n := Int.floor_eq_iff.mpr ⟨h1, by linarith⟩
  unfold rndNE
  rw [hf, if_pos (by linarith)]

/-- Characterisation of `Int.log 2` from a power bracket. -/
theorem int_log2_eq (x : ℚ) (E : ℤ) (h0 : 0 < x)
    (h1 : (2 : ℚ) ^ E ≤ x) (h2 : x < (2 : ℚ) ^ (E + 1)) :
    Int.log 2 x = E := by
  have hcast : ((2 : ℕ) : ℚ) = (2 : ℚ) := by norm_num
  have l1 : (2 : ℚ) ^ Int.log 2 x ≤ x := by
    have h := Int.zpow_log_le_self (b := 2) (R := ℚ) (by norm_num) h0
    rwa [hcast] at h
  have l2 : x < (2 : ℚ) ^ (Int.log 2 x + 1) := by
    have h := Int.lt_zpow_succ_log_self (b := 2) (R := ℚ) (by norm_num) x
    rwa [hcast] at h
  rcases lt_trichotomy (Int.log 2 x) E with h | h | h
  · exfalso
    have hle : (2 : ℚ) ^ (Int.log 2 x + 1) ≤ (2 : ℚ) ^ E :=
      zpow_le_zpow_right₀ (by norm_num) (by omega)
    linarith
  · exact h
  · exfalso
    have hle : (2 : ℚ) ^ (E + 1) ≤ (2 : ℚ) ^ Int.log 2 x :=
      zpow_le_zpow_right₀ (by norm_num) (by omega)
    linarith

/-- Evaluation rule for `roundDouble`, given the binade `E` and the
rounded significand `N`. -/
theorem roundDouble_eq_of (x : ℚ) (E N : ℤ) (hx : x ≠ 0)
    (h1 : (2 : ℚ) ^ E ≤ |x|) (h2 : |x| < (2 : ℚ) ^ (E + 1))
    (hN : rndNE (x * (2 : ℚ) ^ ((52 : ℤ) - E)) = N) :
    roundDouble x = (N : ℚ) * (2 : ℚ) ^ (E - 52) := by
  have hE : Int.log 2 |x| = E := int_log2_eq |x| E (abs_pos.mpr hx) h1 h2
  unfold roundDouble
  rw [if_neg hx, hE, hN]

/-- Rounding to binary64 is the identity on representable values. -/
theorem roundDouble_id (x : ℚ) (h : Representable x) : roundDouble x = x := by
  obtain ⟨n, e, hn, rfl⟩ := h
  by_cases hn0 : n = 0
  · subst hn0
    simp [roundDouble]
  set k : ℕ := Nat.log 2 n.natAbs with hk
  have hna : n.natAbs ≠ 0 := Int.natAbs_ne_zero.mpr hn0
  have hk1 : 2 ^ k ≤ n.natAbs := Nat.pow_log_le_self 2 hna
  have hk2 : n.natAbs < 2 ^ (k + 1) := Nat.lt_pow_succ_log_self (by norm_num) _
  have hk52 : k ≤ 52 := by
    have h53 : n.natAbs < 2 ^ 53 := by
      have h' := hn
      rw [Int.abs_eq_natAbs] at h'
      exact_mod_cast h'
    have hpow : (2 : ℕ) ^ k < 2 ^ 53 := lt_of_le_of_lt hk1 h53
    have := (Nat.pow_lt_pow_iff_right (by norm_num)).mp hpow
    omega
  have h2e : (0 : ℚ) < (2 : ℚ) ^ e := zpow_pos (by norm_num) e
  have habs : |(n : ℚ)| = (n.natAbs : ℚ) := by
    rw [← Int.cast_abs, Int.abs_eq_natAbs, Int.cast_natCast]
  have hq1 : (2 : ℚ) ^ (k : ℤ) ≤ |(n : ℚ)| := by
    rw [zpow_natCast, habs]
    exact_mod_cast hk1
  have hq2 : |(n : ℚ)| < (2 : ℚ) ^ ((k : ℤ) + 1) := by
    rw [show ((k : ℤ) + 1) = ((k + 1 : ℕ) : ℤ) by push_cast; ring, zpow_natCast, habs]
    exact_mod_cast hk2
  have hxabs : |(n : ℚ) * (2 : ℚ) ^ e| = |(n : ℚ)| * (2 : ℚ) ^ e := by
    rw [abs_mul, abs_of_pos h2e]
  have hx0 : (n : ℚ) * (2 : ℚ) ^ e ≠ 0 :=
    mul_ne_zero (Int.cast_ne_zero.mpr hn0) (ne_of_gt h2e)
  set j : ℕ := 52 - k with hj
  have hsplit : (2 : ℚ) ^ e * (2 : ℚ) ^ ((52 : ℤ) - ((k : ℤ) + e)) = (2 : ℚ) ^ (j : ℤ) := by
    rw [← zpow_add₀ (two_ne_zero (α := ℚ))]
    congr 1
    omega
  have harg : (n : ℚ) * (2 : ℚ) ^ e * (2 : ℚ) ^ ((52 : ℤ) - ((k : ℤ) + e))
      = ((n * 2 ^ j : ℤ) : ℚ) := by
    rw [mul_assoc, hsplit]
    push_cast
    rw [zpow_natCast]
  have hN : rndNE ((n : ℚ) * (2 : ℚ) ^ e * (2 : ℚ) ^ ((52 : ℤ) - ((k : ℤ) + e)))
      = n * 2 ^ j := by
    rw [harg]
    exact rndNE_eq_of_lt_half _ _ (le_refl _) (by linarith)
  have hround := roundDouble_eq_of ((n : ℚ) * (2 : ℚ) ^ e) ((k : ℤ) + e) (n * 2 ^ j) hx0
    (by rw [hxabs, zpow_add₀ (two_ne_zero (α := ℚ))]
        exact mul_le_mul_of_nonneg_right hq1 (le_of_lt h2e))
    (by rw [hxabs, show ((k : ℤ) + e + 1) = ((k : ℤ) + 1) + e by ring,
          zpow_add₀ (two_ne_zero (α := ℚ))]
        exact mul_lt_mul_of_pos_right hq2 h2e)
    hN
  rw [hround]
  push_cast
  rw [mul_assoc]
  congr 1
  rw [← zpow_natCast (2 : ℚ) j, ← zpow_add₀ (two_ne_zero (α := ℚ))]
  congr 1
  omega

/-- Integers with at most 53 significand bits are representable. -/
theorem representable_intCast (n : ℤ) (hn : |n| < 2 ^ 53) :
    Representable ((n : ℚ)) :=
  ⟨n, 0, hn, by simp⟩

/-- Masking with a shifted mask then shifting right extracts the masked
bits: `(x &&& (m <<< k)) >>> k = (x >>> k) &&& m`. -/
theorem and_shiftLeft_shiftRight (x m k : Nat) :
    (x &&& (m <<< k)) >>> k = (x >>> k) &&& m := by
  apply Nat.eq_of_testBit_eq
  intro j
  simp only [Nat.testBit_shiftRight, Nat.testBit_and, Nat.testBit_shiftLeft]
  have h : k ≤ k + j := Nat.le_add_right k j
  simp [h, Nat.add_sub_cancel_left]

/-- Extracting the byte at bit offset `k` via mask-and-shift is division
and remainder. -/
theorem and_byte_mask (x k : Nat) :
    (x &&& (0xFF <<< k)) >>> k = x / 2 ^ k % 2 ^ 8 := by
  rw [and_shiftLeft_shiftRight, Nat.shiftRight_eq_div_pow,
    show (0xFF : ℕ) = 2 ^ 8 - 1 from by norm_num,
    Nat.and_pow_two_sub_one_eq_mod]

/-- Reassembling a 48-bit value from its six bytes. -/
theorem byte_reassembly (c : Nat) (hc : c < 2 ^ 48) :
    c / 2 ^ 40 % 2 ^ 8 * 2 ^ 40 + c / 2 ^ 32 % 2 ^ 8 * 2 ^ 32
      + c / 2 ^ 24 % 2 ^ 8 * 2 ^ 24 + c / 2 ^ 16 % 2 ^ 8 * 2 ^ 16
      + c / 2 ^ 8 % 2 ^ 8 * 2 ^ 8 + c % 2 ^ 8 = c := by
  omega

/-- `RTC.encode` on a timestamp is the plain word split of the packed
value (the RTC register has multiplier 1 and size 3). -/
theorem rtc_encode_timestamp (dt : PyDatetime) :
    RTC.encode (.timestamp dt) = encodeWords (rtcPack dt) 3 := by
  rw [show RTC.encode (.timestamp dt) = rtcRegister.encode ((rtcPack dt : ℤ) : ℚ) from rfl,
    encode_intCast, show rtcRegister.multiplier = 1 from rfl, mul_one]
  rfl

/-! ### Claim theorems -/

/-- **C1** (evidence at the failing input): `describe_battery_status` at
`0x0000` does return the status entry "Battery internal resistance
normal", but its fault sequence is *not* empty: the decoder appends the
normal temperature and voltage conditions to the fault list.  At
`0x8000` (bit 15 set) the fault list does contain "Wrong identification
for rated voltage". -/
theorem c1_battery_status_at_zero :
    describe_battery_status 0x0000
      = (["Battery internal resistance normal"],
         ["Battery temperature normal", "Voltage normal"])
    ∧ describe_battery_status 0x8000
      = (["Battery internal resistance normal"],
         ["Wrong identification for rated voltage",
          "Battery temperature normal", "Voltage normal"]) := by
  constructor <;> decide

/-- **C2** (amended): decoding a transport response that carries no
`registers` (resp. `bits`) attribute — the transport returned nothing —
yields a value with absent raw and absent derived value and does not
fail, for every register variant (plain, RTC, coil). -/
theorem c2_decode_no_attribute_absent :
    (∀ r : Register, r.decode none = .ok { raw_value := none, value := none })
    ∧ RTC.decode none = .ok { raw_value := none, value := none }
    ∧ (∀ r : Register, Coil.decode r none = .ok { raw_value := none, value := none }) :=
  ⟨fun _ => rfl, rfl, fun _ => rfl⟩

/-- **C2** (counterexample): when the register (or bit) list is present
but empty, decode raises `IndexError` (`registers[-1]` / `bits[0]`)
rather than producing an absent value, refuting the claim's "decode
never raises on such an empty response (... including a response whose
register list is present but empty)". -/
theorem c2_decode_present_empty_raises :
    BatterySOC.decode (some []) = .error .indexError
    ∧ Coil.decode LoadControl (some []) = .error .indexError := by
  constructor <;> decide

/-- **C3** (counterexample): encode does not round to the nearest
integer.  For the plain register at `0x3100` (multiplier 100) and input
`3/200`, the scaled value is `3/2`: rounding to nearest gives raw 2,
but the code (`int(value * multiplier)`, truncation) produces word 1. -/
theorem c3_encode_does_not_round :
    PvArrayInputVoltage.encode (3 / 200 : ℚ) = [1]
    ∧ round ((3 / 200 : ℚ) * ((100 : ℤ) : ℚ)) = (2 : ℤ) := by
  constructor
  · unfold Register.encode
    have h1 : pyTrunc ((3 / 200 : ℚ) * ((PvArrayInputVoltage.multiplier : ℤ) : ℚ)) = 1 := by
      show pyTrunc ((3 / 200 : ℚ) * ((100 : ℤ) : ℚ)) = 1
      unfold pyTrunc
      rw [if_pos (by norm_num)]
      norm_num
    rw [h1]
    decide
  · norm_num [round_eq]

/-- **C3** (amended): for every plain register with word count `size` and
multiplier `m`, and every input `v`, encode computes
`raw = int(v * m)` — truncation toward zero, not rounding to nearest —
and returns exactly `size` words, least significant word first, with
`word[i] = (raw >> (16 i)) & 0xFFFF`. -/
theorem c3_encode_truncates_and_splits (r : Register) (v : ℚ) :
    (r.encode v).length = r.size
    ∧ ∀ i, i < r.size →
        (r.encode v).getD i 0
          = ((Int.fdiv (pyTrunc (v * (r.multiplier : ℚ))) (2 ^ (i * 16))) % 65536).toNat := by
  constructor
  · simp [Register.encode, encodeWords]
  · intro i hi
    simp only [Register.encode, encodeWords]
    rw [List.getD_eq_getElem?_getD, List.getElem?_map, List.getElem?_range hi]
    rfl

/-- Witness for the amended C3 at the counterexample's input. -/
theorem c3_encode_truncates_and_splits_witness :
    (PvArrayInputVoltage.encode (3 / 200 : ℚ)).length = PvArrayInputVoltage.size
    ∧ (PvArrayInputVoltage.encode (3 / 200 : ℚ)).getD 0 0
        = ((Int.fdiv (pyTrunc ((3 / 200 : ℚ) * (PvArrayInputVoltage.multiplier : ℚ)))
            (2 ^ (0 * 16))) % 65536).toNat :=
  ⟨(c3_encode_truncates_and_splits PvArrayInputVoltage (3 / 200)).1,
   (c3_encode_truncates_and_splits PvArrayInputVoltage (3 / 200)).2 0 (by decide)⟩

/-- **C5** (counterexample): a plain integer passed to the RTC
register's encode is *not* rejected: `RTC.encode` of the non-timestamp
value 12345 succeeds, producing the words `[12345, 0, 0]`.  No
`EncodingError` shape-check exists on this path in the code. -/
theorem c5_rtc_encode_accepts_plain_int :
    RTC.encode (.plain 12345) = [12345, 0, 0] := by
  rw [show RTC.encode (.plain 12345) = rtcRegister.encode ((12345 : ℤ) : ℚ) from rfl,
    encode_intCast]
  decide

/-- **C5** (amended): encoding a value whose shape is not a calendar
timestamp against the RTC register does not fail; the value is used
directly as the packed integer and encoded through the plain numeric
path into the RTC's three words. -/
theorem c5_rtc_encode_plain_passthrough (v : ℤ) :
    RTC.encode (.plain v) = encodeWords v rtcRegister.size
    ∧ (RTC.encode (.plain v)).length = 3 := by
  have h : RTC.encode (.plain v) = rtcRegister.encode ((v : ℤ) : ℚ) := rfl
  rw [h, encode_intCast, show rtcRegister.multiplier = 1 from rfl, mul_one]
  exact ⟨rfl, by simp [encodeWords, rtcRegister]⟩

/-- **C8**: `write_register` on a register classified `InputRegister`
(or `DiscreteInput`) fails with the unsupported-register-type error and
issues zero transport calls. -/
theorem c8_write_register_read_only (r : Register) (v : ℚ)
    (h : r.type = .input ∨ r.type = .discrete) :
    write_register r v = ([], some .unsupportedRegisterType) := by
  rcases h with h | h <;> (unfold write_register; rw [h])

/-- Witness for C8 at the input register `0x311A`. -/
theorem c8_write_register_read_only_witness :
    write_register BatterySOC 0 = ([], some .unsupportedRegisterType) :=
  c8_write_register_read_only BatterySOC 0 (Or.inl (by decide))

/-- **C9**: address classification is a total function of the address:
`[0x0000,0x1000)` coil, `[0x1000,0x3000)` discrete input,
`[0x3000,0x9000)` input register, `[0x9000,0x10000)` holding register,
anything else unknown; in particular `0x3100` input, `0x9000` holding,
`0x2` coil and `0x10000` unknown. -/
theorem c9_address_classification :
    (∀ a : Nat,
      (a < 0x1000 → registerTypeOf a = .coil)
      ∧ (0x1000 ≤ a → a < 0x3000 → registerTypeOf a = .discrete)
      ∧ (0x3000 ≤ a → a < 0x9000 → registerTypeOf a = .input)
      ∧ (0x9000 ≤ a → a < 0x10000 → registerTypeOf a = .holding)
      ∧ (0x10000 ≤ a → registerTypeOf a = .unknown))
    ∧ registerTypeOf 0x3100 = .input
    ∧ registerTypeOf 0x9000 = .holding
    ∧ registerTypeOf 0x2 = .coil
    ∧ registerTypeOf 0x10000 = .unknown := by
  refine ⟨fun a => ⟨?_, ?_, ?_, ?_, ?_⟩, by decide, by decide, by decide, by decide⟩ <;>
    · intros
      unfold registerTypeOf
      split_ifs <;> first | rfl | omega

/-- Witness for C9 in the discrete-input range. -/
theorem c9_address_classification_witness :
    registerTypeOf 0x1500 = .discrete :=
  (c9_address_classification.1 0x1500).2.1 (by decide) (by decide)

/-- **C10**: for every register and input, encode returns exactly `size`
words, each in `[0, 0xFFFF]`; a raw value needing more than `16 * size`
bits is silently truncated to its low `16 * size` bits. -/
theorem c10_encode_bounds_and_truncation :
    (∀ (r : Register) (v : ℚ), (r.encode v).length = r.size)
    ∧ (∀ (r : Register) (v : ℚ) (w : Nat), w ∈ r.encode v → w ≤ 0xFFFF)
    ∧ (∀ (raw : ℤ) (n : Nat), encodeWords raw n = encodeWords (raw % 2 ^ (n * 16)) n) := by
  refine ⟨fun r v => by simp [Register.encode, encodeWords], ?_,
    fun raw n => encodeWords_emod raw n⟩
  intro r v w hw
  simp only [Register.encode, encodeWords, List.mem_map, List.mem_range] at hw
  obtain ⟨i, _, rfl⟩ := hw
  have h1 : (0 : ℤ) ≤ (Int.fdiv (pyTrunc (v * (r.multiplier : ℚ))) (2 ^ (i * 16))) % 65536 :=
    Int.emod_nonneg _ (by norm_num)
  have h2 : (Int.fdiv (pyTrunc (v * (r.multiplier : ℚ))) (2 ^ (i * 16))) % 65536 < 65536 :=
    Int.emod_lt_of_pos _ (by norm_num)
  omega

/-- Witness for C10: length, a concrete in-range word, and truncation of
a negative raw value. -/
theorem c10_encode_bounds_and_truncation_witness :
    (PvArrayInputVoltage.encode (5 : ℚ)).length = PvArrayInputVoltage.size
    ∧ (500 : ℕ) ≤ 0xFFFF
    ∧ encodeWords (-1) 1 = encodeWords ((-1) % 2 ^ (1 * 16)) 1 :=
  ⟨c10_encode_bounds_and_truncation.1 PvArrayInputVoltage 5,
   c10_encode_bounds_and_truncation.2.1 PvArrayInputVoltage 5 500 (by
    rw [show (5 : ℚ) = ((5 : ℤ) : ℚ) from by norm_num, encode_intCast]
    decide),
   c10_encode_bounds_and_truncation.2.2 (-1) 1⟩

/-- **C7**: decode composes `raw = ∑ word[i] * 2^(16 i)` — equal to the
or-composition `⋁ word[i] <<< 16 i` the code performs, because the
returned words are 16-bit and occupy disjoint bit ranges — and subtracts
`1 <<< (16 * word_count)` exactly when bit 15 of the most significant
returned word is set (two's complement over the full width); in
particular for a one-word register `[0xFFFF]` decodes to raw `-1` and
`[0x0001]` to raw `1`. -/
theorem c7_decode_twos_complement :
    (∀ (r : Register) (W : List Nat) (hne : W ≠ []), (∀ w ∈ W, w < 2 ^ 16) →
      r.decode (some W) = .ok (RegisterValue.make r (some
        (((∑ i ∈ Finset.range W.length, W.getD i 0 * 2 ^ (16 * i) : ℕ) : ℤ)
          - (if W.getLast hne &&& 0x8000 = 0x8000 then 2 ^ (16 * W.length) else 0)))))
    ∧ BatterySOC.decode (some [0xFFFF]) = .ok { raw_value := some (-1), value := some (-1) }
    ∧ BatterySOC.decode (some [0x0001]) = .ok { raw_value := some 1, value := some 1 } := by
  refine ⟨?_, by decide, by decide⟩
  intro r W hne hw
  rw [decode_some r W hne]
  have hval : (if W.getLast hne &&& 0x8000 = 0x8000 then
        (composeWords W : ℤ) - 2 ^ (W.length * 16)
      else (composeWords W : ℤ))
      = (((∑ i ∈ Finset.range W.length, W.getD i 0 * 2 ^ (16 * i) : ℕ) : ℤ)
          - (if W.getLast hne &&& 0x8000 = 0x8000 then 2 ^ (16 * W.length) else 0)) := by
    rw [composeWords_eq_sum W hw, sumWords_eq_finsetSum, Nat.mul_comm W.length 16]
    split_ifs with h
    · rfl
    · rw [sub_zero]
  rw [hval]

/-- Witness for C7 on a concrete two-word response. -/
theorem c7_decode_twos_complement_witness :
    BatterySOC.decode (some [0xFFFF, 1]) = .ok (RegisterValue.make BatterySOC (some
      (((∑ i ∈ Finset.range ([0xFFFF, 1] : List ℕ).length,
          ([0xFFFF, 1] : List ℕ).getD i 0 * 2 ^ (16 * i) : ℕ) : ℤ)
        - (if ([0xFFFF, 1] : List ℕ).getLast (by decide) &&& 0x8000 = 0x8000 then
            2 ^ (16 * ([0xFFFF, 1] : List ℕ).length) else 0)))) :=
  c7_decode_twos_complement.1 BatterySOC [0xFFFF, 1] (by decide) (by decide)

/-- **C4** (counterexample): under real IEEE-754 binary64 semantics the
decode-then-encode round trip fails.  Decoding `[29]` on the
multiplier-100 register at `0x3100` yields raw 29; `float(29)/100`
rounds to the double `5224175567749775 * 2 ^ (-54)`
(0.28999999999999998...), whose re-encoding product rounds to
28.999999999999996... and truncates to 28 — so the claimed exact
recovery of `[29]` is refuted: the program re-encodes `[28]`. -/
theorem c4_float_roundtrip_cex :
    PvArrayInputVoltage.decode (some [29])
      = .ok (RegisterValue.make PvArrayInputVoltage (some 29))
    ∧ floatValue PvArrayInputVoltage 29 = 5224175567749775 * (2 : ℚ) ^ (-(54 : ℤ))
    ∧ PvArrayInputVoltage.floatEncode (floatValue PvArrayInputVoltage 29) = [28]
    ∧ PvArrayInputVoltage.floatEncode (floatValue PvArrayInputVoltage 29) ≠ [29] := by
  have h29 : roundDouble ((29 : ℚ)) = 29 :=
    roundDouble_id _ ⟨29, 0, by norm_num, by norm_num⟩
  have h100 : roundDouble ((100 : ℚ)) = 100 :=
    roundDouble_id _ ⟨100, 0, by norm_num, by norm_num⟩
  have hq : roundDouble ((29 : ℚ) / 100) = 5224175567749775 * (2 : ℚ) ^ (-(54 : ℤ)) := by
    have h := roundDouble_eq_of ((29 : ℚ) / 100) (-2) 5224175567749775 (by norm_num)
      (by rw [abs_of_pos (by norm_num)]; norm_num)
      (by rw [abs_of_pos (by norm_num)]; norm_num)
      (by
        rw [show (52 : ℤ) - (-2) = 54 from by norm_num]
        exact rndNE_eq_of_lt_half _ _ (by norm_num) (by norm_num))
    rw [show (-2 : ℤ) - 52 = -(54 : ℤ) from by norm_num] at h
    exact h
  have hmul : ((PvArrayInputVoltage.multiplier : ℤ) : ℚ) = (100 : ℚ) := by
    norm_num [PvArrayInputVoltage]
  have hval : floatValue PvArrayInputVoltage 29
      = 5224175567749775 * (2 : ℚ) ^ (-(54 : ℤ)) := by
    unfold floatValue
    rw [if_pos (show PvArrayInputVoltage.multiplier ≠ 1 from by decide), hmul,
      show (((29 : ℤ) : ℚ)) = (29 : ℚ) from by norm_num, h29, h100, hq]
  have henc : PvArrayInputVoltage.floatEncode (floatValue PvArrayInputVoltage 29)
      = [28] := by
    rw [hval]
    unfold Register.floatEncode
    rw [hmul, h100]
    have hprod : (5224175567749775 * (2 : ℚ) ^ (-(54 : ℤ))) * 100
        = 130604389193744375 * (2 : ℚ) ^ (-(52 : ℤ)) := by
      rw [show (130604389193744375 : ℚ) = 5224175567749775 * 25 from by norm_num,
        show (2 : ℚ) ^ (-(52 : ℤ)) = (2 : ℚ) ^ (-(54 : ℤ)) * 4 from by
          rw [show (-(52 : ℤ)) = -(54 : ℤ) + 2 from by norm_num,
            zpow_add₀ (two_ne_zero (α := ℚ))]
          norm_num]
      ring
    rw [hprod]
    have hr : roundDouble (130604389193744375 * (2 : ℚ) ^ (-(52 : ℤ)))
        = 8162774324609023 * (2 : ℚ) ^ (-(48 : ℤ)) := by
      have h := roundDouble_eq_of (130604389193744375 * (2 : ℚ) ^ (-(52 : ℤ)))
        4 8162774324609023 (by positivity)
        (by rw [abs_of_pos (by positivity)]; norm_num)
        (by rw [abs_of_pos (by positivity)]; norm_num)
        (by
          rw [show (52 : ℤ) - 4 = 48 from by norm_num,
            show (130604389193744375 : ℚ) * (2 : ℚ) ^ (-(52 : ℤ)) * (2 : ℚ) ^ (48 : ℤ)
              = 130604389193744375 / 16 from by
                rw [mul_assoc, ← zpow_add₀ (two_ne_zero (α := ℚ))]
                norm_num]
          exact rndNE_eq_of_lt_half _ _ (by norm_num) (by norm_num))
      rw [show (4 : ℤ) - 52 = -(48 : ℤ) from by norm_num] at h
      exact h
    rw [hr]
    have ht : pyTrunc (8162774324609023 * (2 : ℚ) ^ (-(48 : ℤ))) = 28 := by
      unfold pyTrunc
      rw [if_pos (by positivity)]
      exact Int.floor_eq_iff.mpr ⟨by norm_num, by norm_num⟩
    rw [ht]
    decide
  refine ⟨?_, hval, henc, by rw [henc]; decide⟩
  rw [decode_some PvArrayInputVoltage [29] (by decide),
    show (if ([29] : List ℕ).getLast (by decide) &&& 0x8000 = 0x8000 then
        ((composeWords [29] : ℕ) : ℤ) - 2 ^ (([29] : List ℕ).length * 16)
      else ((composeWords [29] : ℕ) : ℤ)) = (29 : ℤ) from by decide]

/-- **C4** (amended): for a plain register whose multiplier is not 1
(and, as for every catalog register, not 0, with at most 53 significand
bits) and a word list of the register's full width (at most 3 words, as
in the catalog), decoding and re-encoding under real IEEE-754 binary64
semantics recovers the original words exactly WHENEVER the derived
value `raw / multiplier` is exactly representable as a binary64; for
non-representable quotients the double rounding can shift the
re-encoded raw value, as the counterexample `[29]` shows. -/
theorem c4_float_roundtrip_representable (r : Register) (W : List Nat)
    (hlen : W.length = r.size) (hne : W ≠ []) (hw : ∀ w ∈ W, w < 2 ^ 16)
    (hs : r.size ≤ 3) (hm1 : r.multiplier ≠ 1) (hm0 : r.multiplier ≠ 0)
    (hm53 : |r.multiplier| < 2 ^ 53)
    (rv : RegisterValue) (hd : r.decode (some W) = .ok rv)
    (raw : ℤ) (hraw : rv.raw_value = some raw)
    (hrep : Representable ((raw : ℚ) / (r.multiplier : ℚ))) :
    r.floatEncode (floatValue r raw) = W := by
  rw [decode_some r W hne] at hd
  set X : ℤ := if W.getLast hne &&& 0x8000 = 0x8000 then
      (composeWords W : ℤ) - 2 ^ (W.length * 16) else (composeWords W : ℤ) with hX
  have hrv : RegisterValue.make r (some X) = rv := Except.ok.inj hd
  rw [← hrv, make_raw_value] at hraw
  have hXraw : X = raw := Option.some.inj hraw
  subst hXraw
  have hcomp : composeWords W = sumWords W := composeWords_eq_sum W hw
  have hlt : sumWords W < 2 ^ (W.length * 16) := sumWords_lt W hw
  have hlen48 : W.length * 16 ≤ 48 := by rw [hlen]; omega
  have hpowle : (2 : ℤ) ^ (W.length * 16) ≤ 2 ^ 48 :=
    pow_le_pow_right₀ (by norm_num) hlen48
  have hcompI : (0 : ℤ) ≤ ((composeWords W : ℕ) : ℤ) := Int.ofNat_nonneg _
  have hcompLt : ((composeWords W : ℕ) : ℤ) < 2 ^ (W.length * 16) := by
    rw [hcomp]
    exact_mod_cast hlt
  have h4853 : (2 : ℤ) ^ 48 < 2 ^ 53 := by norm_num
  have hXb : |X| < 2 ^ 53 := by
    rw [abs_lt]
    constructor
    · rw [hX]
      split_ifs with h
      · linarith
      · linarith
    · rw [hX]
      split_ifs with h
      · linarith
      · linarith
  have hXrep : Representable ((X : ℚ)) := representable_intCast X hXb
  have hmrep : Representable ((r.multiplier : ℚ)) := representable_intCast r.multiplier hm53
  have hfv : floatValue r X = (X : ℚ) / (r.multiplier : ℚ) := by
    unfold floatValue
    rw [if_pos hm1, roundDouble_id _ hXrep, roundDouble_id _ hmrep, roundDouble_id _ hrep]
  unfold Register.floatEncode
  rw [hfv, roundDouble_id _ hmrep,
    div_mul_cancel₀ _ (Int.cast_ne_zero.mpr hm0 : ((r.multiplier : ℤ) : ℚ) ≠ 0),
    roundDouble_id _ hXrep, pyTrunc_intCast, ← hlen]
  apply encodeWords_sign_roundtrip W hw
  by_cases h : W.getLast hne &&& 0x8000 = 0x8000
  · exact Or.inr (by rw [hX, if_pos h])
  · exact Or.inl (by rw [hX, if_neg h])

/-- Witness for the amended C4: raw 25 on the multiplier-100 register
gives the exactly representable quotient 1/4, and the float round trip
recovers `[25]`. -/
theorem c4_float_roundtrip_representable_witness :
    PvArrayInputVoltage.floatEncode (floatValue PvArrayInputVoltage 25) = [25] :=
  c4_float_roundtrip_representable PvArrayInputVoltage [25] (by decide) (by decide)
    (by decide) (by decide) (by decide) (by decide) (by decide)
    (RegisterValue.make PvArrayInputVoltage (some 25))
    (by
      rw [decode_some PvArrayInputVoltage [25] (by decide),
        show (if ([25] : List ℕ).getLast (by decide) &&& 0x8000 = 0x8000 then
            ((composeWords [25] : ℕ) : ℤ) - 2 ^ (([25] : List ℕ).length * 16)
          else ((composeWords [25] : ℕ) : ℤ)) = (25 : ℤ) from by decide])
    25 rfl
    ⟨1, -2, by norm_num, by push_cast; norm_num [PvArrayInputVoltage]⟩

/-- **C6**: encoding the timestamp 2023-06-15 10:30:45 against the RTC
register produces the 48-bit packed value with bytes (most significant
first) 0x17, 0x06, 0x0F, 0x0A, 0x1E, 0x2D split into three little-endian
words; and for every well-formed 3-word sequence — one whose decode
yields a timestamp — re-encoding the decoded timestamp recovers the
identical words, hence the identical six fields. -/
theorem c6_rtc_pack_and_roundtrip :
    RTC.encode (.timestamp ⟨2023, 6, 15, 10, 30, 45⟩) = [0x1E2D, 0x0F0A, 0x1706]
    ∧ ∀ (W : List Nat) (raw : ℤ) (dt : PyDatetime), W.length = 3 →
        (∀ w ∈ W, w < 2 ^ 16) →
        RTC.decode (some W) = .ok { raw_value := some raw, value := some dt } →
        RTC.encode (.timestamp dt) = W := by
  constructor
  · rw [rtc_encode_timestamp]
    decide
  · intro W raw dt hlen hw hd
    have hne : W ≠ [] := by intro h; rw [h] at hlen; simp at hlen
    have hcomp : composeWords W = sumWords W := composeWords_eq_sum W hw
    have hlt : sumWords W < 2 ^ 48 := by
      have h := sumWords_lt W hw
      rw [hlen] at h
      norm_num at h
      exact h
    simp only [RTC.decode, decode_some rtcRegister W hne] at hd
    have hmv : ∀ v : ℤ, (RegisterValue.make rtcRegister (some v)).value = some ((v : ℚ)) :=
      fun v => rfl
    simp only [hmv, make_raw_value, pyTrunc_intCast] at hd
    have hXmod : (if W.getLast hne &&& 32768 = 32768 then
        ((composeWords W : ℕ) : ℤ) - 2 ^ (W.length * 16)
      else ((composeWords W : ℕ) : ℤ)) % 2 ^ 48 = ((sumWords W : ℕ) : ℤ) := by
      have h2 : ((2 : ℤ) ^ (W.length * 16)) = 2 ^ 48 := by rw [hlen]
      have hcast : ((sumWords W : ℕ) : ℤ) < 2 ^ 48 := by exact_mod_cast hlt
      split_ifs with h
      · rw [hcomp, h2, show ((sumWords W : ℕ) : ℤ) - 2 ^ 48
            = ((sumWords W : ℕ) : ℤ) + (-1) * 2 ^ 48 from by ring, Int.add_mul_emod_self]
        exact Int.emod_eq_of_lt (by positivity) hcast
      · rw [hcomp]
        exact Int.emod_eq_of_lt (by positivity) hcast
    rw [hXmod] at hd
    rw [Int.toNat_natCast] at hd
    rcases hmk : datetimeMk ((sumWords W &&& 280375465082880) >>> 40 + 2000)
        ((sumWords W &&& 1095216660480) >>> 32) ((sumWords W &&& 4278190080) >>> 24)
        ((sumWords W &&& 16711680) >>> 16) ((sumWords W &&& 65280) >>> 8)
        (sumWords W &&& 255) with e | dt'
    · rw [hmk] at hd
      exact absurd hd (by simp)
    · rw [hmk] at hd
      have hdt : dt' = dt := by
        have h1 := Except.ok.inj hd
        have h2 := congrArg RTCValue.value h1
        simpa using h2
      subst hdt
      unfold datetimeMk at hmk
      split_ifs at hmk with hvalid
      · have hdt' : dt' = ⟨(sumWords W &&& 280375465082880) >>> 40 + 2000,
            (sumWords W &&& 1095216660480) >>> 32, (sumWords W &&& 4278190080) >>> 24,
            (sumWords W &&& 16711680) >>> 16, (sumWords W &&& 65280) >>> 8,
            sumWords W &&& 255⟩ := (Except.ok.inj hmk).symm
        subst hdt'
        rw [rtc_encode_timestamp]
        have hpack : rtcPack ⟨(sumWords W &&& 280375465082880) >>> 40 + 2000,
            (sumWords W &&& 1095216660480) >>> 32, (sumWords W &&& 4278190080) >>> 24,
            (sumWords W &&& 16711680) >>> 16, (sumWords W &&& 65280) >>> 8,
            sumWords W &&& 255⟩ = ((sumWords W : ℕ) : ℤ) := by
          unfold rtcPack
          simp only
          rw [show (280375465082880 : ℕ) = 0xFF <<< 40 from by decide,
            show (1095216660480 : ℕ) = 0xFF <<< 32 from by decide,
            show (4278190080 : ℕ) = 0xFF <<< 24 from by decide,
            show (16711680 : ℕ) = 0xFF <<< 16 from by decide,
            show (65280 : ℕ) = 0xFF <<< 8 from by decide,
            and_byte_mask, and_byte_mask, and_byte_mask, and_byte_mask, and_byte_mask,
            show (255 : ℕ) = 2 ^ 8 - 1 from by norm_num,
            Nat.and_pow_two_sub_one_eq_mod]
          omega
        rw [hpack, ← hlen]
        exact encodeWords_sign_roundtrip W hw _ (Or.inl (by rw [hcomp]))

/-- Witness for C6's round trip: the words for 2024-02-29 00:00:00. -/
theorem c6_rtc_pack_and_roundtrip_witness :
    RTC.encode (.timestamp ⟨2024, 2, 29, 0, 0, 0⟩) = [0x0000, 0x1D00, 0x1802] :=
  c6_rtc_pack_and_roundtrip.2 [0x0000, 0x1D00, 0x1802] 26397355540480
    ⟨2024, 2, 29, 0, 0, 0⟩ (by decide) (by decide) (by decide)

end EpsolarTracer
